import Mathlib

/-!
Verification of `modules/puzzles/puzzle_processing.py`.

The file embeds the two functions of the module, `find_puzzle` and
`extract_digit`, as Lean functions.  The module itself is a thin layer of
control flow over third-party image-processing primitives (OpenCV, imutils,
skimage); those primitives are not part of the repository, so they are
abstracted as fields of a structure (`CvPrims` for the frame pipeline,
`CellPrims` for the cell pipeline) over which all theorems quantify, while
the primitives whose pointwise behaviour the claims depend on
(`cv2.threshold` with a given Otsu level, `skimage.segmentation.clear_border`
restricted to a connectivity oracle, filled-contour mask drawing restricted
to an interior oracle, and `cv2.bitwise_and` with a mask) are modelled
pixelwise.  The control flow, constants and comparisons of the Python
source are translated literally.
-/

/-- A single-channel raster image: a list of rows of natural-number pixel
intensities (`numpy` `uint8` values in the source). -/
abbrev Image : Type := List (List ℕ)

/-- A colour (3-channel, BGR) raster image: the camera frame. -/
abbrev Frame : Type := List (List (ℕ × ℕ × ℕ))

/-- A contour: an ordered sequence of 2D integer points, as produced by
`cv2.findContours` / `cv2.approxPolyDP` (an `N x 1 x 2` integer array in the
source; `reshape(4, 2)` is the identity on this representation). -/
abbrev Contour : Type := List (ℤ × ℤ)

/-- The exception that is raised when the `find_puzzle` method fails to
detect the puzzle contour (class `PuzzleNotFoundError` of the source; the
spec calls the same failure signal `GridNotFoundError`). -/
inductive PuzzleNotFoundError : Type
  | mk : PuzzleNotFoundError
deriving DecidableEq

/-- The external image-processing primitives used by `find_puzzle`.  They
come from OpenCV/imutils, not from the repository, so they are abstract
here; theorems hold for every choice of them.
`gaussianBlur` takes the kernel size and sigma, `adaptiveThreshold` the
max value, block size and constant, `boundingRect` returns `(x, y, w, h)`.
`drawContoursFrame` is `cv2.drawContours` on the colour frame (green
outline, thickness 2 in the source), `fourPointTransform` is
`imutils.perspective.four_point_transform`. -/
structure CvPrims where
  cvtColorGray : Frame → Image
  gaussianBlur : Image → ℕ × ℕ → ℕ → Image
  adaptiveThreshold : Image → ℕ → ℕ → ℕ → Image
  bitwiseNot : Image → Image
  findContours : Image → List Contour
  arcLength : Contour → ℚ
  approxPolyDP : Contour → ℚ → Contour
  contourArea : Contour → ℚ
  boundingRect : Contour → ℕ × ℕ × ℕ × ℕ
  drawContoursFrame : Frame → Contour → Frame
  fourPointTransform : Image → Contour → Image

/-- The descending-area order used by
`sorted(cnts, key=cv2.contourArea, reverse=True)`. -/
def areaDescOrder (area : Contour → ℚ) (a b : Contour) : Prop :=
  area b ≤ area a

instance (area : Contour → ℚ) : DecidableRel (areaDescOrder area) :=
  fun a b => inferInstanceAs (Decidable (area b ≤ area a))

instance (area : Contour → ℚ) : IsTotal Contour (areaDescOrder area) :=
  ⟨fun a b => le_total (area b) (area a)⟩

instance (area : Contour → ℚ) : IsTrans Contour (areaDescOrder area) :=
  ⟨fun _ _ _ hab hbc => le_trans hbc hab⟩

/-- The preprocessing of `find_puzzle`: grayscale conversion, Gaussian blur
with kernel `(7, 7)` and sigma `3`, adaptive threshold with max value `255`,
block size `11`, constant `2`, then inversion (source lines 31-38). -/
def frameThresh (p : CvPrims) (frame : Frame) : Image :=
  p.bitwiseNot
    (p.adaptiveThreshold (p.gaussianBlur (p.cvtColorGray frame) (7, 7) 3)
      255 11 2)

/-- The contour list of `find_puzzle` after
`sorted(cnts, key=cv2.contourArea, reverse=True)` (source lines 42-45).
Python's `sorted` is a stable sort; stable insertion sort with the
descending-area order realises it. -/
def frameContoursSorted (p : CvPrims) (frame : Frame) : List Contour :=
  List.insertionSort (areaDescOrder p.contourArea)
    (p.findContours (frameThresh p frame))

/-- The contour loop of `find_puzzle` (source lines 51-72).  Returns the
accepted polygon approximation (if any) together with the frame, onto which
`cv2.drawContours` has drawn the accepted contour in the success case. -/
def find_puzzle_loop (p : CvPrims) (frame : Frame) :
    List Contour → Option Contour × Frame
  | [] => (none, frame)
  | c :: cnts =>
    let peri := p.arcLength c
    let approx := p.approxPolyDP c (0.01 * peri)
    if approx.length = 4 then
      -- (x, y, w, h) = cv2.boundingRect(approx); x and y are unused
      let w := (p.boundingRect approx).2.2.1
      let h := (p.boundingRect approx).2.2.2
      let aspectRatio : ℚ := (w : ℚ) / (h : ℚ)
      if (45 < w ∧ 45 < h) ∧ ((0.8 : ℚ) ≤ aspectRatio ∧ aspectRatio ≤ 1.2) then
        (some approx, p.drawContoursFrame frame approx)
      else
        find_puzzle_loop p frame cnts
    else
      find_puzzle_loop p frame cnts

/-- `find_puzzle` (source lines 25-80).  The raised exception is modelled as
an `Except.error`; the pair's second component is the state of the
caller-visible frame after the call. -/
def find_puzzle (p : CvPrims) (frame : Frame) :
    Except PuzzleNotFoundError Image × Frame :=
  let gray := p.cvtColorGray frame
  match find_puzzle_loop p frame (frameContoursSorted p frame) with
  | (none, f) => (Except.error PuzzleNotFoundError.mk, f)
  | (some puzzle_cnt, f) =>
      (Except.ok (p.fourPointTransform gray puzzle_cnt), f)

/-- The polygon approximation computed for a contour inside the loop:
`cv2.approxPolyDP(c, 0.01 * cv2.arcLength(c, True), True)`. -/
def approxOf (p : CvPrims) (c : Contour) : Contour :=
  p.approxPolyDP c (0.01 * p.arcLength c)

/-- The bounding-box aspect ratio `w / float(h)` of a contour's polygon
approximation. -/
def aspectRatioOf (p : CvPrims) (c : Contour) : ℚ :=
  ((p.boundingRect (approxOf p c)).2.2.1 : ℚ) /
    ((p.boundingRect (approxOf p c)).2.2.2 : ℚ)

/-- The acceptance test of the contour loop: the polygon approximation has
exactly 4 vertices, its bounding box satisfies `w > 45 and h > 45`, and the
aspect ratio lies in `[0.8, 1.2]`. -/
def Qualifies (p : CvPrims) (c : Contour) : Prop :=
  (approxOf p c).length = 4 ∧
    (45 < (p.boundingRect (approxOf p c)).2.2.1 ∧
      45 < (p.boundingRect (approxOf p c)).2.2.2) ∧
    ((0.8 : ℚ) ≤ aspectRatioOf p c ∧ aspectRatioOf p c ≤ 1.2)

instance (p : CvPrims) (c : Contour) : Decidable (Qualifies p c) := by
  unfold Qualifies; infer_instance

theorem find_puzzle_loop_cons (p : CvPrims) (frame : Frame) (c : Contour)
    (cnts : List Contour) :
    find_puzzle_loop p frame (c :: cnts) =
      if Qualifies p c then
        (some (approxOf p c), p.drawContoursFrame frame (approxOf p c))
      else find_puzzle_loop p frame cnts := by
  show (if (approxOf p c).length = 4 then _ else _) = _
  by_cases h4 : (approxOf p c).length = 4
  · rw [if_pos h4]
    show (if (45 < (p.boundingRect (approxOf p c)).2.2.1 ∧
          45 < (p.boundingRect (approxOf p c)).2.2.2) ∧
        ((0.8 : ℚ) ≤ aspectRatioOf p c ∧ aspectRatioOf p c ≤ 1.2) then
        (some (approxOf p c), p.drawContoursFrame frame (approxOf p c))
      else find_puzzle_loop p frame cnts) = _
    by_cases hk : (45 < (p.boundingRect (approxOf p c)).2.2.1 ∧
          45 < (p.boundingRect (approxOf p c)).2.2.2) ∧
        ((0.8 : ℚ) ≤ aspectRatioOf p c ∧ aspectRatioOf p c ≤ 1.2)
    · rw [if_pos hk, if_pos ⟨h4, hk⟩]
    · rw [if_neg hk, if_neg (fun hq => hk ⟨hq.2.1, hq.2.2⟩)]
  · rw [if_neg h4, if_neg (fun hq => h4 hq.1)]

theorem find_puzzle_loop_append_no_qual (p : CvPrims) (frame : Frame)
    (l₁ rest : List Contour) (h : ∀ x ∈ l₁, ¬ Qualifies p x) :
    find_puzzle_loop p frame (l₁ ++ rest) = find_puzzle_loop p frame rest := by
  induction l₁ with
  | nil => rfl
  | cons a l ih =>
    rw [List.cons_append, find_puzzle_loop_cons,
      if_neg (h a (List.mem_cons_self a l))]
    exact ih fun x hx => h x (List.mem_cons_of_mem a hx)

theorem find_puzzle_loop_no_qual (p : CvPrims) (frame : Frame)
    (l : List Contour) (h : ∀ x ∈ l, ¬ Qualifies p x) :
    find_puzzle_loop p frame l = (none, frame) := by
  induction l with
  | nil => rfl
  | cons a l ih =>
    rw [find_puzzle_loop_cons, if_neg (h a (List.mem_cons_self a l))]
    exact ih fun x hx => h x (List.mem_cons_of_mem a hx)

theorem find_puzzle_loop_none_frame (p : CvPrims) (frame : Frame)
    (l : List Contour) (f : Frame)
    (h : find_puzzle_loop p frame l = (none, f)) : f = frame := by
  induction l with
  | nil => exact (Prod.mk.injEq _ _ _ _ ▸ h).2.symm
  | cons a l ih =>
    rw [find_puzzle_loop_cons] at h
    by_cases hq : Qualifies p a
    · rw [if_pos hq] at h
      exact absurd (Prod.mk.injEq _ _ _ _ ▸ h).1 (by simp)
    · exact ih (by rwa [if_neg hq] at h)

/-- C1: for every frame, the grid locator accepts exactly the first contour,
in descending enclosed-area order, whose polygon approximation (tolerance 1%
of the contour's perimeter) has exactly 4 vertices and whose axis-aligned
bounding box has width > 45 px, height > 45 px, and aspect ratio within
[0.8, 1.2]; contours after the first qualifying one are never examined (the
loop's outcome is the same for every tail after the first qualifying
contour). -/
theorem find_puzzle_first_qualifying (p : CvPrims) (frame : Frame)
    (l₁ l₂ : List Contour) (c : Contour)
    (hdecomp : frameContoursSorted p frame = l₁ ++ c :: l₂)
    (hbefore : ∀ x ∈ l₁, ¬ Qualifies p x)
    (hc : Qualifies p c) :
    List.Sorted (areaDescOrder p.contourArea) (l₁ ++ c :: l₂) ∧
    find_puzzle p frame =
      (Except.ok (p.fourPointTransform (p.cvtColorGray frame) (approxOf p c)),
        p.drawContoursFrame frame (approxOf p c)) ∧
    ∀ tail : List Contour, find_puzzle_loop p frame (l₁ ++ c :: tail) =
      (some (approxOf p c), p.drawContoursFrame frame (approxOf p c)) := by
  have htail : ∀ tail : List Contour,
      find_puzzle_loop p frame (l₁ ++ c :: tail) =
        (some (approxOf p c), p.drawContoursFrame frame (approxOf p c)) := by
    intro tail
    rw [find_puzzle_loop_append_no_qual p frame l₁ _ hbefore,
      find_puzzle_loop_cons, if_pos hc]
  refine ⟨hdecomp ▸ List.sorted_insertionSort _ _, ?_, htail⟩
  have hloop : find_puzzle_loop p frame (frameContoursSorted p frame) =
      (some (approxOf p c), p.drawContoursFrame frame (approxOf p c)) := by
    rw [hdecomp]; exact htail l₂
  simp [find_puzzle, hloop]

/-- C2: for every frame in which no contour satisfies the 4-vertex + size +
aspect-ratio conditions, `find_puzzle` raises `PuzzleNotFoundError` (the
spec's `GridNotFoundError`), and this is the module's only explicit failure
signal: every value of the error type is that single exception. -/
theorem find_puzzle_raises_when_none_qualify (p : CvPrims) (frame : Frame)
    (h : ∀ c ∈ p.findContours (frameThresh p frame), ¬ Qualifies p c) :
    (find_puzzle p frame).1 = Except.error PuzzleNotFoundError.mk ∧
      ∀ e : PuzzleNotFoundError, e = PuzzleNotFoundError.mk := by
  have hsorted : ∀ c ∈ frameContoursSorted p frame, ¬ Qualifies p c := by
    intro c hcmem
    exact h c ((List.mem_insertionSort _).mp hcmem)
  have hloop := find_puzzle_loop_no_qual p frame _ hsorted
  exact ⟨by simp [find_puzzle, hloop], fun e => by cases e; rfl⟩

/-- C5: on success, the grid locator applies the four-point perspective
transform to the grayscale image (the unthresholded, unblurred grayscale
conversion of the frame), using the accepted quadrilateral's corners in
exactly the point ordering the polygon approximation produced, and returns
the resulting top-down view. -/
theorem find_puzzle_transforms_gray (p : CvPrims) (frame : Frame)
    (a : Contour) (f : Frame)
    (h : find_puzzle_loop p frame (frameContoursSorted p frame) = (some a, f)) :
    find_puzzle p frame =
      (Except.ok (p.fourPointTransform (p.cvtColorGray frame) a), f) := by
  simp [find_puzzle, h]

/-- C6: for every frame whose 4-vertex contours all have bounding boxes no
larger than the minimum size threshold (such as 10 x 10 px, below the 45 px
minimum), the grid locator raises `PuzzleNotFoundError`, rejected by the
size check, even though a 4-vertex contour exists. -/
theorem find_puzzle_raises_small_quad (p : CvPrims) (frame : Frame)
    (hex : ∃ c ∈ p.findContours (frameThresh p frame), (approxOf p c).length = 4)
    (hsmall : ∀ c ∈ p.findContours (frameThresh p frame),
      (approxOf p c).length = 4 →
      (p.boundingRect (approxOf p c)).2.2.1 ≤ 45 ∧
        (p.boundingRect (approxOf p c)).2.2.2 ≤ 45) :
    (find_puzzle p frame).1 = Except.error PuzzleNotFoundError.mk := by
  have h : ∀ c ∈ p.findContours (frameThresh p frame), ¬ Qualifies p c := by
    intro c hcmem hq
    have hw := (hsmall c hcmem hq.1).1
    have hw' := hq.2.1.1
    omega
  exact (find_puzzle_raises_when_none_qualify p frame h).1

/-- C9: the grid locator mutates the caller's frame (drawing the accepted
contour) only when a qualifying contour is found; on every frame on which it
raises `PuzzleNotFoundError`, the input frame is returned unchanged. -/
theorem find_puzzle_error_frame_unchanged (p : CvPrims) (frame : Frame)
    (h : ∃ e, (find_puzzle p frame).1 = Except.error e) :
    (find_puzzle p frame).2 = frame := by
  obtain ⟨e, he⟩ := h
  rcases hl : find_puzzle_loop p frame (frameContoursSorted p frame) with ⟨r, f⟩
  cases r with
  | some a => simp [find_puzzle, hl] at he
  | none =>
    have hf := find_puzzle_loop_none_frame p frame _ f hl
    simp [find_puzzle, hl, hf]

/-- Pixelwise map over one row, tracking the column index. -/
def mapPixelsRow (f : ℕ → ℕ → ℕ) : ℕ → List ℕ → List ℕ
  | _, [] => []
  | j, px :: rest => f j px :: mapPixelsRow f (j + 1) rest

/-- Pixelwise map over the rows of an image from a given row index. -/
def mapPixelsFrom (f : ℕ → ℕ → ℕ → ℕ) : ℕ → List (List ℕ) → List (List ℕ)
  | _, [] => []
  | i, row :: rest => mapPixelsRow (f i) 0 row :: mapPixelsFrom f (i + 1) rest

/-- Pixelwise map over an image with row and column indices. -/
def mapPixels (f : ℕ → ℕ → ℕ → ℕ) (img : Image) : Image :=
  mapPixelsFrom f 0 img

/-- `cv2.threshold(cell, 0, maxval, THRESH_BINARY_INV | THRESH_OTSU)[1]`
once the Otsu level `t` has been selected: a pixel strictly above the level
maps to 0, every other pixel to `maxval` (the source passes 255). -/
def thresholdBinaryInv (t maxval : ℕ) (img : Image) : Image :=
  List.map (List.map (fun px => if t < px then 0 else maxval)) img

/-- `skimage.segmentation.clear_border`: every pixel belonging to a
foreground component that touches the image border is reset to 0, every
other pixel is kept.  Which pixels are border-connected is the result of
the library's connected-component labelling, abstracted as the oracle
`bc`. -/
def clearBorderModel (bc : ℕ → ℕ → Bool) (img : Image) : Image :=
  mapPixels (fun i j px => if bc i j then 0 else px) img

/-- `mask = np.zeros(thresh.shape); cv2.drawContours(mask, [c], -1, 255, -1)`:
a filled single-contour mask on the shape of `shape`, with the library's
rasterisation of the contour interior abstracted as the oracle `ins`. -/
def filledContourMask (ins : ℕ → ℕ → Bool) (shape : Image) : Image :=
  mapPixels (fun i j _ => if ins i j then 255 else 0) shape

/-- `cv2.bitwise_and(src, src, mask=mask)`: where the mask is non-zero the
destination receives `src AND src`, elsewhere it stays at its freshly
allocated value 0. -/
def bitwiseAndMasked (src mask : Image) : Image :=
  List.zipWith
    (fun rs rm => List.zipWith (fun px m => if m ≠ 0 then Nat.land px px else 0) rs rm)
    src mask

/-- The external primitives used by `extract_digit` that are kept abstract:
the Otsu threshold level selected by `cv2.threshold(..., THRESH_OTSU)`, the
border-connectivity oracle of `clear_border`, contour extraction
(`cv2.findContours` + `imutils.grab_contours`), `cv2.contourArea`, and the
contour-interior oracle of filled `cv2.drawContours`. -/
structure CellPrims where
  otsuThreshold : Image → ℕ
  borderConnected : Image → ℕ → ℕ → Bool
  findContours : Image → List Contour
  contourArea : Contour → ℚ
  insideContour : Contour → ℕ → ℕ → Bool

/-- Python's `max(cnts, key=area)` on the non-empty list `best :: rest`:
scans left to right and keeps the first element of maximal key. -/
def pyMax (area : Contour → ℚ) : Contour → List Contour → Contour
  | best, [] => best
  | best, c :: rest => pyMax area (if area best < area c then c else best) rest

/-- The thresholded-and-cleared cell of `extract_digit` (source lines
94-96): Otsu inverse-binary threshold at 255, then border clearing. -/
def cellThresh (p : CellPrims) (cell : Image) : Image :=
  let thresh := thresholdBinaryInv (p.otsuThreshold cell) 255 cell
  clearBorderModel (p.borderConnected thresh) thresh

/-- `extract_digit` (source lines 83-117): threshold and clear the cell,
find contours; with no contour return `(None, True)`; otherwise mask the
thresholded cell to the interior of the largest-area contour and return
`(digit, False)`. -/
def extract_digit (p : CellPrims) (cell : Image) : Option Image × Bool :=
  let empty := true
  let thresh := cellThresh p cell
  match p.findContours thresh with
  | [] => (none, empty)
  | c0 :: rest =>
    let empty := false
    let c := pyMax p.contourArea c0 rest
    let mask := filledContourMask (p.insideContour c) thresh
    let digit := bitwiseAndMasked thresh mask
    (some digit, empty)

/-- A binary mask in the sense of the spec: every pixel is 0 or 255. -/
def IsBinaryImage (img : Image) : Prop :=
  ∀ row ∈ img, ∀ px ∈ row, px = 0 ∨ px = 255

instance (img : Image) : Decidable (IsBinaryImage img) := by
  unfold IsBinaryImage; infer_instance

theorem pyMax_mem (area : Contour → ℚ) (b : Contour) (l : List Contour) :
    pyMax area b l ∈ b :: l := by
  induction l generalizing b with
  | nil => simp [pyMax]
  | cons c rest ih =>
    rw [pyMax]
    rcases List.mem_cons.mp (ih (if area b < area c then c else b)) with h1 | h1
    · rw [h1]
      by_cases hlt : area b < area c
      · simp [hlt]
      · simp [hlt]
    · exact List.mem_cons_of_mem b (List.mem_cons_of_mem c h1)

theorem pyMax_le (area : Contour → ℚ) (b : Contour) (l : List Contour) :
    ∀ x ∈ b :: l, area x ≤ area (pyMax area b l) := by
  induction l generalizing b with
  | nil =>
    intro x hx
    rw [List.mem_singleton.mp hx, pyMax]
  | cons c rest ih =>
    intro x hx
    rw [pyMax]
    have hb : area b ≤ area (if area b < area c then c else b) := by
      by_cases hlt : area b < area c
      · rw [if_pos hlt]; exact le_of_lt hlt
      · rw [if_neg hlt]
    have hc : area c ≤ area (if area b < area c then c else b) := by
      by_cases hlt : area b < area c
      · rw [if_pos hlt]
      · rw [if_neg hlt]; exact le_of_not_lt hlt
    have htop : area (if area b < area c then c else b) ≤
        area (pyMax area (if area b < area c then c else b) rest) :=
      ih (if area b < area c then c else b) _ (List.mem_cons_self _ rest)
    rcases List.mem_cons.mp hx with h1 | h1
    · rw [h1]; exact le_trans hb htop
    · rcases List.mem_cons.mp h1 with h2 | h2
      · rw [h2]; exact le_trans hc htop
      · exact ih (if area b < area c then c else b) x
          (List.mem_cons_of_mem _ h2)

theorem exists_of_mem_mapPixelsRow (f : ℕ → ℕ → ℕ) (j : ℕ) (row : List ℕ)
    (px : ℕ) (h : px ∈ mapPixelsRow f j row) :
    ∃ j' q, q ∈ row ∧ px = f j' q := by
  induction row generalizing j with
  | nil => simp [mapPixelsRow] at h
  | cons a rest ih =>
    rw [mapPixelsRow] at h
    rcases List.mem_cons.mp h with h1 | h1
    · exact ⟨j, a, List.mem_cons_self a rest, h1⟩
    · obtain ⟨j', q, hq, he⟩ := ih (j + 1) h1
      exact ⟨j', q, List.mem_cons_of_mem a hq, he⟩

theorem exists_of_mem_mapPixelsFrom (f : ℕ → ℕ → ℕ → ℕ) (i : ℕ)
    (img : List (List ℕ)) (row : List ℕ) (h : row ∈ mapPixelsFrom f i img) :
    ∃ i' r, r ∈ img ∧ row = mapPixelsRow (f i') 0 r := by
  induction img generalizing i with
  | nil => simp [mapPixelsFrom] at h
  | cons a rest ih =>
    rw [mapPixelsFrom] at h
    rcases List.mem_cons.mp h with h1 | h1
    · exact ⟨i, a, List.mem_cons_self a rest, h1⟩
    · obtain ⟨i', r, hr, he⟩ := ih (i + 1) h1
      exact ⟨i', r, List.mem_cons_of_mem a hr, he⟩

theorem exists_of_mem_zipWith {α β γ : Type} (f : α → β → γ)
    (l₁ : List α) (l₂ : List β) (x : γ) (h : x ∈ List.zipWith f l₁ l₂) :
    ∃ a b, a ∈ l₁ ∧ b ∈ l₂ ∧ x = f a b := by
  induction l₁ generalizing l₂ with
  | nil => simp at h
  | cons a rest ih =>
    cases l₂ with
    | nil => simp at h
    | cons b rest₂ =>
      rw [List.zipWith_cons_cons] at h
      rcases List.mem_cons.mp h with h1 | h1
      · exact ⟨a, b, List.mem_cons_self a rest, List.mem_cons_self b rest₂, h1⟩
      · obtain ⟨a', b', ha, hb, he⟩ := ih rest₂ h1
        exact ⟨a', b', List.mem_cons_of_mem a ha, List.mem_cons_of_mem b hb, he⟩

theorem thresholdBinaryInv_isBinary (t : ℕ) (img : Image) :
    IsBinaryImage (thresholdBinaryInv t 255 img) := by
  intro row hrow px hpx
  obtain ⟨r, _, hre⟩ := List.mem_map.mp hrow
  subst hre
  obtain ⟨q, _, hqe⟩ := List.mem_map.mp hpx
  subst hqe
  by_cases hlt : t < q
  · left; rw [if_pos hlt]
  · right; rw [if_neg hlt]

theorem clearBorderModel_isBinary (bc : ℕ → ℕ → Bool) (img : Image)
    (h : IsBinaryImage img) : IsBinaryImage (clearBorderModel bc img) := by
  intro row hrow px hpx
  obtain ⟨i', r, hr, hre⟩ := exists_of_mem_mapPixelsFrom _ 0 img row hrow
  subst hre
  obtain ⟨j', q, hq, hqe⟩ := exists_of_mem_mapPixelsRow _ 0 r px hpx
  subst hqe
  by_cases hb : bc i' j'
  · left; simp [hb]
  · simpa [hb] using h r hr q hq

theorem cellThresh_isBinary (p : CellPrims) (cell : Image) :
    IsBinaryImage (cellThresh p cell) :=
  clearBorderModel_isBinary _ _ (thresholdBinaryInv_isBinary _ _)

theorem bitwiseAndMasked_isBinary (src mask : Image)
    (h : IsBinaryImage src) : IsBinaryImage (bitwiseAndMasked src mask) := by
  intro row hrow px hpx
  obtain ⟨rs, rm, hrs, _, hre⟩ := exists_of_mem_zipWith _ src mask row hrow
  subst hre
  obtain ⟨q, m, hq, _, hqe⟩ := exists_of_mem_zipWith _ rs rm px hpx
  subst hqe
  by_cases hz : m ≠ 0
  · rw [if_pos hz]
    rcases h rs hrs q hq with h0 | h255
    · left; rw [h0]; decide
    · right; rw [h255]; decide
  · left; rw [if_neg hz]

/-- C3: for every cell image in which at least one contour is found after
thresholding and border-clearing, `extract_digit` selects the contour of
maximum enclosed area, builds a filled mask of that single contour's
interior, bitwise-ANDs it with the thresholded image, and returns
(resulting mask, False). -/
theorem extract_digit_largest_contour (p : CellPrims) (cell : Image)
    (c0 : Contour) (rest : List Contour)
    (h : p.findContours (cellThresh p cell) = c0 :: rest) :
    extract_digit p cell =
      (some (bitwiseAndMasked (cellThresh p cell)
        (filledContourMask (p.insideContour (pyMax p.contourArea c0 rest))
          (cellThresh p cell))), false) ∧
      pyMax p.contourArea c0 rest ∈ c0 :: rest ∧
      ∀ c' ∈ c0 :: rest,
        p.contourArea c' ≤ p.contourArea (pyMax p.contourArea c0 rest) := by
  refine ⟨?_, pyMax_mem _ _ _, pyMax_le _ _ _⟩
  simp [extract_digit, h]

/-- C4: for every cell image in which zero contours are found after Otsu
thresholding (inverted) and border-clearing, `extract_digit` classifies the
cell empty and returns `(none, true)`; the witness instantiates this at an
entirely blank cell. -/
theorem extract_digit_no_contours_empty (p : CellPrims) (cell : Image)
    (h : p.findContours (cellThresh p cell) = []) :
    extract_digit p cell = (none, true) := by
  simp [extract_digit, h]

/-- C7: `extract_digit` is deterministic: two calls on the same input yield
identical `(mask, flag)` output.  The embedding is a pure function with no
hidden state, so equal inputs give equal outputs. -/
theorem extract_digit_deterministic (p : CellPrims) (cell₁ cell₂ : Image)
    (h : cell₁ = cell₂) :
    extract_digit p cell₁ = extract_digit p cell₂ :=
  congrArg (extract_digit p) h

/-- C8: every digit mask returned by `extract_digit` (when present) is a
binary mask: a single-channel image whose pixel values are restricted to
{0, 255}. -/
theorem extract_digit_mask_binary (p : CellPrims) (cell : Image)
    (digit : Image) (b : Bool)
    (h : extract_digit p cell = (some digit, b)) :
    IsBinaryImage digit := by
  rcases hc : p.findContours (cellThresh p cell) with _ | ⟨c0, rest⟩
  · simp [extract_digit, hc] at h
  · simp only [extract_digit, hc] at h
    have hdigit : digit = bitwiseAndMasked (cellThresh p cell)
        (filledContourMask (p.insideContour (pyMax p.contourArea c0 rest))
          (cellThresh p cell)) := by
      have := (Prod.mk.injEq _ _ _ _ ▸ h).1
      exact (Option.some.injEq _ _ ▸ this).symm
    rw [hdigit]
    exact bitwiseAndMasked_isBinary _ _ (cellThresh_isBinary p cell)

/-- C10: for every cell image, the pair returned by `extract_digit` is
consistent: the mask is absent (`none`) if and only if the emptiness flag is
`true`; a present mask always comes with flag `false`. -/
theorem extract_digit_flag_consistent (p : CellPrims) (cell : Image) :
    ((extract_digit p cell).1 = none ↔ (extract_digit p cell).2 = true) ∧
      ∀ d : Image, (extract_digit p cell).1 = some d →
        (extract_digit p cell).2 = false := by
  rcases hc : p.findContours (cellThresh p cell) with _ | ⟨c0, rest⟩ <;>
    simp [extract_digit, hc]

/-- A concrete square contour used by the witnesses. -/
def wQuad : Contour := [(0, 0), (99, 0), (99, 99), (0, 99)]

/-- A concrete 1 x 1 frame used by the witnesses. -/
def wFrame : Frame := [[(0, 0, 0)]]

/-- Concrete grid-locator primitives for the witnesses: contour extraction
finds a single 100 x 100 square contour. -/
def wPrims : CvPrims where
  cvtColorGray := fun _ => [[0]]
  gaussianBlur := fun img _ _ => img
  adaptiveThreshold := fun img _ _ _ => img
  bitwiseNot := fun img => img
  findContours := fun _ => [wQuad]
  arcLength := fun c => (c.length : ℚ)
  approxPolyDP := fun c _ => c
  contourArea := fun c => (c.length : ℚ)
  boundingRect := fun _ => (0, 0, 100, 100)
  drawContoursFrame := fun f _ => f
  fourPointTransform := fun img _ => img

/-- Concrete grid-locator primitives whose contour extraction finds no
contour at all. -/
def wPrimsNoCnts : CvPrims where
  cvtColorGray := fun _ => [[0]]
  gaussianBlur := fun img _ _ => img
  adaptiveThreshold := fun img _ _ _ => img
  bitwiseNot := fun img => img
  findContours := fun _ => []
  arcLength := fun c => (c.length : ℚ)
  approxPolyDP := fun c _ => c
  contourArea := fun c => (c.length : ℚ)
  boundingRect := fun _ => (0, 0, 100, 100)
  drawContoursFrame := fun f _ => f
  fourPointTransform := fun img _ => img

/-- Concrete grid-locator primitives whose only contour is a 4-vertex
quadrilateral with a 10 x 10 bounding box. -/
def wPrimsSmall : CvPrims where
  cvtColorGray := fun _ => [[0]]
  gaussianBlur := fun img _ _ => img
  adaptiveThreshold := fun img _ _ _ => img
  bitwiseNot := fun img => img
  findContours := fun _ => [wQuad]
  arcLength := fun c => (c.length : ℚ)
  approxPolyDP := fun c _ => c
  contourArea := fun c => (c.length : ℚ)
  boundingRect := fun _ => (0, 0, 10, 10)
  drawContoursFrame := fun f _ => f
  fourPointTransform := fun img _ => img

theorem wQuad_qualifies : Qualifies wPrims wQuad := by
  have h1 : (0.8 : ℚ) ≤ aspectRatioOf wPrims wQuad := by
    show (0.8 : ℚ) ≤ ((100 : ℕ) : ℚ) / ((100 : ℕ) : ℚ)
    norm_num
  have h2 : aspectRatioOf wPrims wQuad ≤ 1.2 := by
    show ((100 : ℕ) : ℚ) / ((100 : ℕ) : ℚ) ≤ (1.2 : ℚ)
    norm_num
  exact ⟨rfl, ⟨by decide, by decide⟩, h1, h2⟩

theorem find_puzzle_first_qualifying_witness :
    List.Sorted (areaDescOrder wPrims.contourArea) ([] ++ wQuad :: []) ∧
    find_puzzle wPrims wFrame =
      (Except.ok (wPrims.fourPointTransform (wPrims.cvtColorGray wFrame)
        (approxOf wPrims wQuad)),
        wPrims.drawContoursFrame wFrame (approxOf wPrims wQuad)) ∧
    find_puzzle_loop wPrims wFrame ([] ++ wQuad :: [wQuad]) =
      (some (approxOf wPrims wQuad),
        wPrims.drawContoursFrame wFrame (approxOf wPrims wQuad)) := by
  have h := find_puzzle_first_qualifying wPrims wFrame [] [] wQuad rfl
    (fun x hx => absurd hx (List.not_mem_nil x)) wQuad_qualifies
  exact ⟨h.1, h.2.1, h.2.2 [wQuad]⟩

theorem find_puzzle_raises_when_none_qualify_witness :
    (find_puzzle wPrimsNoCnts wFrame).1 = Except.error PuzzleNotFoundError.mk :=
  (find_puzzle_raises_when_none_qualify wPrimsNoCnts wFrame
    (fun c hc => absurd hc (List.not_mem_nil c))).1

theorem find_puzzle_transforms_gray_witness :
    find_puzzle wPrims wFrame =
      (Except.ok (wPrims.fourPointTransform (wPrims.cvtColorGray wFrame) wQuad),
        wFrame) :=
  find_puzzle_transforms_gray wPrims wFrame wQuad wFrame (by
    show find_puzzle_loop wPrims wFrame [wQuad] = (some wQuad, wFrame)
    rw [find_puzzle_loop_cons, if_pos wQuad_qualifies]; rfl)

theorem find_puzzle_raises_small_quad_witness :
    (find_puzzle wPrimsSmall wFrame).1 = Except.error PuzzleNotFoundError.mk :=
  find_puzzle_raises_small_quad wPrimsSmall wFrame
    ⟨wQuad, by decide, by decide⟩ (by decide)

theorem find_puzzle_error_frame_unchanged_witness :
    (find_puzzle wPrimsNoCnts wFrame).2 = wFrame :=
  find_puzzle_error_frame_unchanged wPrimsNoCnts wFrame
    ⟨PuzzleNotFoundError.mk, rfl⟩

/-- A concrete 2 x 2 cell used by the witnesses. -/
def wCell : Image := [[10, 200], [0, 255]]

/-- A concrete entirely blank (uniform-intensity) cell. -/
def wBlankCell : Image := [[7, 7], [7, 7]]

/-- The single contour found by `wCellPrims`. -/
def wDigitContour : Contour := [(0, 0)]

/-- Concrete cell primitives whose contour extraction finds one contour. -/
def wCellPrims : CellPrims where
  otsuThreshold := fun _ => 100
  borderConnected := fun _ _ _ => false
  findContours := fun _ => [wDigitContour]
  contourArea := fun c => (c.length : ℚ)
  insideContour := fun _ _ _ => true

/-- Concrete cell primitives whose contour extraction finds no contour (as
`cv2.findContours` does on the all-background image a blank cell becomes
after thresholding and border clearing). -/
def wCellPrimsNone : CellPrims where
  otsuThreshold := fun _ => 100
  borderConnected := fun _ _ _ => false
  findContours := fun _ => []
  contourArea := fun c => (c.length : ℚ)
  insideContour := fun _ _ _ => true

theorem extract_digit_largest_contour_witness :
    extract_digit wCellPrims wCell = (some [[255, 0], [255, 0]], false) := by
  have h := (extract_digit_largest_contour wCellPrims wCell wDigitContour [] rfl).1
  rw [h]
  decide

theorem extract_digit_no_contours_empty_witness :
    extract_digit wCellPrimsNone wBlankCell = (none, true) :=
  extract_digit_no_contours_empty wCellPrimsNone wBlankCell rfl

theorem extract_digit_deterministic_witness :
    extract_digit wCellPrims wCell = extract_digit wCellPrims wCell :=
  extract_digit_deterministic wCellPrims wCell wCell rfl

theorem extract_digit_mask_binary_witness :
    IsBinaryImage [[255, 0], [255, 0]] :=
  extract_digit_mask_binary wCellPrims wCell [[255, 0], [255, 0]] false
    (by decide)
